import Mathlib

/-!
Shallow embedding of the baumdb storage engine (an LSM key-value store) and
proofs about its specification claims.

Conventions of the embedding:
* Rust `String` keys and values are modelled as their UTF-8 byte sequences,
  `List Nat` (each element a byte value; Rust orders strings by exactly this
  byte sequence, and `String::from_utf8` on bytes produced from a valid string
  returns that string back).
* `BTreeMap<String, MemValue>` is modelled as a strictly sorted association
  list ordered by byte-wise lexicographic comparison.
* gzip compression is modelled by a pair of function parameters
  `compress` / `decompress`; theorems that need the codec to be lossless take
  the round-trip equation as a hypothesis.  The `DefaultHasher` of the Bloom
  filter is likewise modelled by a function parameter `hstep`, where
  `hstep key i` is the 64-bit hash state after feeding `key` and the round
  counters `0..=i` (the theorems hold for every such function).
* Fallible reads return `Option` / `Except`; loops that read until the first
  decode error are modelled with an explicit fuel argument (always called with
  fuel ≥ the number of remaining bytes, which suffices because every
  iteration consumes at least one byte).
-/

namespace BaumDb

/-- `MemValue` from src/memtable.rs: a `Put` value or a tombstone. -/
inductive MemValue where
  | put (v : List Nat)
  | delete
deriving DecidableEq, Repr

/-- One entry of a memtable: key bytes paired with a value slot. -/
abbrev TableEntry := List Nat × MemValue

/-- A `BTreeMap<String, MemValue>` as a sorted association list. -/
abbrev Table := List TableEntry

/-- Byte-wise lexicographic strict order, Rust's `Ord` on `str`/`[u8]`. -/
def bytesLt : List Nat → List Nat → Bool
  | [], [] => false
  | [], _ :: _ => true
  | _ :: _, [] => false
  | a :: as, b :: bs => if a < b then true else if b < a then false else bytesLt as bs

/-- `BTreeMap::insert`: replace the slot of an existing key, otherwise insert
at the sorted position. -/
def insertEntry (k : List Nat) (v : MemValue) : Table → Table
  | [] => [(k, v)]
  | (k', v') :: t =>
    if bytesLt k k' then (k, v) :: (k', v') :: t
    else if k = k' then (k, v) :: t
    else (k', v') :: insertEntry k v t

/-- `BTreeMap::remove`: drop the entry of `k` (if any) and report the removed
slot. -/
def removeEntry (k : List Nat) : Table → Option MemValue × Table
  | [] => (none, [])
  | (k', v') :: t =>
    if k = k' then (some v', t)
    else
      let r := removeEntry k t
      (r.1, (k', v') :: r.2)

/-- `BTreeMap::get`. -/
def lookupEntry (k : List Nat) : Table → Option MemValue
  | [] => none
  | (k', v') :: t => if k = k' then some v' else lookupEntry k t

/-- The `BTreeMap` ordering invariant: keys strictly increasing. -/
def SortedTable (m : Table) : Prop :=
  m.Pairwise (fun a b => bytesLt a.1 b.1 = true)

instance (m : Table) : Decidable (SortedTable m) :=
  inferInstanceAs (Decidable
    (List.Pairwise (fun (a b : TableEntry) => bytesLt a.1 b.1 = true) m))

/-- `MemTableWrite::put` (src/memtable.rs): insert a `Put` slot. -/
def memPut (k v : List Nat) (m : Table) : Table :=
  insertEntry k (MemValue.put v) m

/-- `MemTableWrite::delete` (src/memtable.rs): remove the key; only when the
key was absent, insert a tombstone "just in case". -/
def memDelete (k : List Nat) (m : Table) : Table :=
  let r := removeEntry k m
  if r.1.isNone then insertEntry k MemValue.delete r.2 else r.2

/-- `memtable_get_inner` (src/memtable.rs): `Put` yields the value, a
tombstone and an absent key both yield `none`. -/
def memGet (k : List Nat) (m : Table) : Option (List Nat) :=
  match lookupEntry k m with
  | some (MemValue.put v) => some v
  | some MemValue.delete => none
  | none => none

/-- `MemTable::len`. -/
def memLen (m : Table) : Nat := m.length

/-! ### Big-endian u64 framing (`to_be_bytes` / `read_u64::<BigEndian>`) -/

/-- `u64::to_be_bytes` of a length value. -/
def toBE64 (n : Nat) : List Nat :=
  [n / 256 ^ 7 % 256, n / 256 ^ 6 % 256, n / 256 ^ 5 % 256, n / 256 ^ 4 % 256,
   n / 256 ^ 3 % 256, n / 256 ^ 2 % 256, n / 256 % 256, n % 256]

/-- Big-endian value of 8 bytes. -/
def beVal (l : List Nat) : Nat :=
  l.foldl (fun acc b => acc * 256 + b) 0

/-- `read_u64::<BigEndian>`: take 8 bytes, fail if fewer remain. -/
def readU64 (l : List Nat) : Option (Nat × List Nat) :=
  if 8 ≤ l.length then some (beVal (l.take 8), l.drop 8) else none

/-! ### Key-value records (src/serialization.rs writer, src/deserialization.rs
`read_key_value`) -/

/-- The bytes the serializer appends to the block encoder for one entry:
`u64 key_len · key · kind` and, for `Put`, `u64 value_len · value`. -/
def encRecord : TableEntry → List Nat
  | (k, MemValue.delete) => toBE64 k.length ++ k ++ [0]
  | (k, MemValue.put v) => toBE64 k.length ++ k ++ [1] ++ toBE64 v.length ++ v

/-- `read_key_value`: parse one record, returning the rest of the input.  The
`kind` byte is matched as in the source: `0` is a tombstone, `1` a `Put`, any
other value a decode failure. -/
def parseRecord (l : List Nat) : Option (TableEntry × List Nat) :=
  match readU64 l with
  | none => none
  | some (klen, r1) =>
    if klen ≤ r1.length then
      match r1.drop klen with
      | [] => none
      | t :: r2 =>
        if t = 0 then some ((r1.take klen, MemValue.delete), r2)
        else if t = 1 then
          match readU64 r2 with
          | none => none
          | some (vlen, r3) =>
            if vlen ≤ r3.length then
              some ((r1.take klen, MemValue.put (r3.take vlen)), r3.drop vlen)
            else none
        else none
    else none

/-- The `while let Ok(..) = read_key_value(..)` loop: parse records until the
first decode failure.  `fuel` only bounds the recursion; every parsed record
consumes at least one byte, so `fuel ≥ l.length` makes the bound inert. -/
def parseRecs : Nat → List Nat → List TableEntry
  | 0, _ => []
  | fuel + 1, l =>
    match parseRecord l with
    | none => []
    | some (e, rest) => e :: parseRecs fuel rest

/-! ### `Serialize for MemTable` (src/serialization.rs)

The fold state mirrors `SerializedFoldState`: the three output buffers, the
bytes fed into the current block encoder (`enc_input`, the data the gzip
encoder would compress), the `encoded_bytes` counter and the running
`offset_counter`.  The Bloom filter bits of `SerializedTableData` are built
with the abstract hasher `hstep` (see the Bloom section below). -/

/-- Default Bloom filter size in bytes: `DefaultBloomFilter::default()` is
`new(65536, 5)`. -/
def bloomDefaultSize : Nat := 65536

/-- Number of hash rounds of the default Bloom filter. -/
def bloomDefaultHashes : Nat := 5

/-- The Bloom filter's `vec![0; size]` byte buffer, modelled as the map from
bit index to stored byte (only indices `< size` are ever touched: every
derived index is reduced modulo `size`). -/
def bloomNew : Nat → Nat := fun _ => 0

/-- `BloomHasher::hash_key`: `vec![0; n_hashes]` followed by pushing
`n_hashes` hash results modulo `size` (note the vec is *pre-filled* with
zeros, so the result also contains `n_hashes` zero indices). -/
def hashKey (hstep : List Nat → Nat → Nat) (size nHashes : Nat) (key : List Nat) : List Nat :=
  List.replicate nHashes 0 ++ (List.range nHashes).map (fun i => hstep key i % size)

/-- `self.filter[idx] = 1`. -/
def bloomSet (filter : Nat → Nat) (idx : Nat) : Nat → Nat :=
  fun j => if j = idx then 1 else filter j

/-- `BloomFilter::add_key`: set every derived bit index to 1. -/
def bloomAddKey (hstep : List Nat → Nat → Nat) (size nHashes : Nat)
    (key : List Nat) (filter : Nat → Nat) : Nat → Nat :=
  (hashKey hstep size nHashes key).foldl bloomSet filter

/-- `BloomFilter::may_contain_key`: true iff every derived bit is set. -/
def bloomMayContain (hstep : List Nat → Nat → Nat) (size nHashes : Nat)
    (key : List Nat) (filter : Nat → Nat) : Bool :=
  (hashKey hstep size nHashes key).all (fun idx => filter idx == 1)

/-- `SerializedTableData`. -/
structure SerializedTableData where
  mainData : List Nat
  offsets : List Nat
  bloomFilter : Nat → Nat

/-- `SerializedFoldState`. -/
structure SerFoldState where
  tableData : SerializedTableData
  encInput : List Nat
  encodedBytes : Nat
  offsetCounter : Nat

/-- One iteration of the serializer's `try_fold` closure for entry `e` at
index `i` of `n` entries. -/
def serStep (compress : List Nat → List Nat) (hstep : List Nat → Nat → Nat)
    (n : Nat) (i : Nat) (st : SerFoldState) (e : TableEntry) : SerFoldState :=
  -- record the first key of a fresh block in the index buffer
  let offsets1 :=
    if st.encodedBytes = 0 then st.tableData.offsets ++ toBE64 e.1.length ++ e.1
    else st.tableData.offsets
  let bloom1 := bloomAddKey hstep bloomDefaultSize bloomDefaultHashes e.1 st.tableData.bloomFilter
  let encInput1 := st.encInput ++ encRecord e
  let encodedBytes1 := st.encodedBytes + (encRecord e).length
  if 4096 ≤ encodedBytes1 ∨ i = n - 1 then
    -- finish the encoder: emit `u64 compressed_len · compressed_bytes`,
    -- append the block offset to the index buffer, advance the counter
    let encodedData := compress encInput1
    { tableData :=
        { mainData := st.tableData.mainData ++ toBE64 encodedData.length ++ encodedData
          offsets := offsets1 ++ toBE64 st.offsetCounter
          bloomFilter := bloom1 }
      encInput := []
      encodedBytes := 0
      offsetCounter := st.offsetCounter + encodedData.length }
  else
    { tableData := { mainData := st.tableData.mainData, offsets := offsets1, bloomFilter := bloom1 }
      encInput := encInput1
      encodedBytes := encodedBytes1
      offsetCounter := st.offsetCounter }

/-- The serializer's fold over `self.into_iter().enumerate()`. -/
def serGo (compress : List Nat → List Nat) (hstep : List Nat → Nat → Nat)
    (n : Nat) : Nat → SerFoldState → List TableEntry → SerFoldState
  | _, st, [] => st
  | i, st, e :: es => serGo compress hstep n (i + 1) (serStep compress hstep n i st e) es

/-- Initial fold state (`SerializedFoldState::new()`). -/
def serInit : SerFoldState :=
  { tableData := { mainData := [], offsets := [], bloomFilter := bloomNew }
    encInput := []
    encodedBytes := 0
    offsetCounter := 0 }

/-- `Serialize::serialize for MemTable`. -/
def serialize (compress : List Nat → List Nat) (hstep : List Nat → Nat → Nat)
    (m : Table) : SerializedTableData :=
  (serGo compress hstep (memLen m) 0 serInit m).tableData

/-! ### `DataHandling for MemTable::try_from_file` (src/memtable.rs):
decode the data file back into a table. -/

/-- Decode the framed block sequence of a data file into the concatenated
record list: read `u64 block_len`, take that many bytes (failing like
`read_exact` if fewer remain), decompress, parse records, repeat until the
input is exhausted.  `fuel ≥ l.length` makes the bound inert. -/
def decodeBlocks (decompress : List Nat → List Nat) : Nat → List Nat → Option (List TableEntry)
  | _, [] => some []
  | 0, _ :: _ => none
  | fuel + 1, l =>
    match readU64 l with
    | none => none
    | some (blen, rest) =>
      if blen ≤ rest.length then
        let block := decompress (rest.take blen)
        match decodeBlocks decompress fuel (rest.drop blen) with
        | none => none
        | some es => some (parseRecs block.length block ++ es)
      else none

/-- `try_from_file`: decode every block and insert each record in order into
a fresh `BTreeMap`. -/
def tryFromData (decompress : List Nat → List Nat) (bytes : List Nat) : Option Table :=
  match decodeBlocks decompress bytes.length bytes with
  | none => none
  | some es => some (es.foldl (fun acc e => insertEntry e.1 e.2 acc) [])

/-! ### Sparse index (src/deserialization.rs `read_key_offset` and the index
scan of `BaumDb::get`, src/db.rs) -/

/-- `read_key_offset`: `u64 key_len · key · u64 block_offset`. -/
def parseKeyOffset (l : List Nat) : Option ((List Nat × Nat) × List Nat) :=
  match readU64 l with
  | none => none
  | some (klen, r1) =>
    if klen ≤ r1.length then
      match readU64 (r1.drop klen) with
      | none => none
      | some (off, r2) => some ((r1.take klen, off), r2)
    else none

/-- The `while let Ok(..) = read_key_offset(..)` loop building `index_vec`. -/
def readKeyOffsets : Nat → List Nat → List (List Nat × Nat)
  | 0, _ => []
  | fuel + 1, l =>
    match parseKeyOffset l with
    | none => []
    | some (e, rest) => e :: readKeyOffsets fuel rest

/-- The index-entry selection of `BaumDb::get` (src/db.rs):
`index_iter.next_if(|(idx, _)| idx.as_str() < key).or_else(|| index_iter.next())`.
`next_if` consumes and returns the first entry when its key is `< key`;
otherwise the `or_else` fallback `next()` consumes and returns that same first
entry.  The returned pair is the selected entry together with the rest of the
iterator (whose head supplies `next_offset`). -/
def selectIndexEntry (index : List (List Nat × Nat)) (key : List Nat) :
    Option ((List Nat × Nat) × List (List Nat × Nat)) :=
  match index with
  | [] => none
  | e :: rest => if bytesLt e.1 key then some (e, rest) else some (e, rest)

/-- Byte positions of the `u64 compressed_block_len` fields of the successive
framed blocks of a data file (walking the actual framing). -/
def framePositions : Nat → Nat → List Nat → List Nat
  | _, _, [] => []
  | 0, _, _ :: _ => []
  | fuel + 1, pos, l =>
    match readU64 l with
    | none => []
    | some (blen, rest) =>
      if blen ≤ rest.length then
        pos :: framePositions fuel (pos + 8 + blen) (rest.drop blen)
      else [pos]

/-! ### The `BaumDb` engine (src/db.rs)

The engine state holds the writable main table, the read-only secondary
table, the flush-channel queue (tables sent to the background flush task but
not yet written) and the SST files on disk, newest first, each a pair of
(data-file bytes, index-file bytes) as written by
`FileHandling::flush for SstFileHandler` (src/file_handler.rs). -/

/-- Engine state of `BaumDb`. -/
structure EngineState where
  mainTable : Table
  secondaryTable : Table
  maxMemtableSize : Nat
  pendingFlush : List Table
  sstFiles : List (List Nat × List Nat)
deriving Repr

/-- `BaumDb::new`: empty tables, no files. -/
def initEngine (maxMemtableSize : Nat) : EngineState :=
  { mainTable := [], secondaryTable := [], maxMemtableSize := maxMemtableSize,
    pendingFlush := [], sstFiles := [] }

/-- `BaumDb::flush_memtable`: swap the main table out, keep it as the
secondary read-only table and send it to the flush task. -/
def flushMemtable (s : EngineState) : EngineState :=
  { s with mainTable := [], secondaryTable := s.mainTable,
           pendingFlush := s.pendingFlush ++ [s.mainTable] }

/-- `BaumDb::maybe_flush_memtable`: rotate when `len() >= max_memtable_size`. -/
def maybeFlushMemtable (s : EngineState) : EngineState :=
  if s.maxMemtableSize ≤ memLen s.mainTable then flushMemtable s else s

/-- `DB::put for BaumDb`. -/
def enginePut (k v : List Nat) (s : EngineState) : EngineState :=
  maybeFlushMemtable { s with mainTable := memPut k v s.mainTable }

/-- `DB::delete for BaumDb`. -/
def engineDelete (k : List Nat) (s : EngineState) : EngineState :=
  maybeFlushMemtable { s with mainTable := memDelete k s.mainTable }

/-- The background flush task (spawned in `BaumDb::new`): receive one table
from the channel and flush it through `SstFileHandler::flush`, which
serializes it and pushes the new file bundle to the front. -/
def engineFlushStep (compress : List Nat → List Nat) (hstep : List Nat → Nat → Nat)
    (s : EngineState) : EngineState :=
  match s.pendingFlush with
  | [] => s
  | t :: rest =>
    let sd := serialize compress hstep t
    { s with pendingFlush := rest, sstFiles := (sd.mainData, sd.offsets) :: s.sstFiles }

/-- The per-bundle disk probe of `BaumDb::get`: read the index, select an
entry, read the data file from its offset up to the next entry's offset
(`read_exact`, an error if the file is shorter) or to the end of the file
(`read_to_end`), decompress that region and scan its records for the key.
`some (some v)` / `some none` mean a `Put` / tombstone record was found and
the overall `get` returns; `none` means this bundle does not decide the key. -/
def bundleProbe (decompress : List Nat → List Nat) (key : List Nat)
    (dataBytes indexBytes : List Nat) : Except Unit (Option (Option (List Nat))) :=
  let indexVec := readKeyOffsets indexBytes.length indexBytes
  match selectIndexEntry indexVec key with
  | none => Except.ok none
  | some ((_, off), iterRest) =>
    let rawBlock? : Except Unit (List Nat) :=
      match iterRest with
      | (_, nextOff) :: _ =>
        if nextOff ≤ dataBytes.length then
          Except.ok ((dataBytes.drop off).take (nextOff - off))
        else Except.error ()
      | [] => Except.ok (dataBytes.drop off)
    match rawBlock? with
    | Except.error e => Except.error e
    | Except.ok rawBlock =>
      let records := parseRecs (decompress rawBlock).length (decompress rawBlock)
      match records.find? (fun e => e.1 = key) with
      | some (_, MemValue.put v) => Except.ok (some (some v))
      | some (_, MemValue.delete) => Except.ok (some none)
      | none => Except.ok none

/-- The SST loop of `BaumDb::get` over the visible file bundles. -/
def diskGet (decompress : List Nat → List Nat) (key : List Nat) :
    List (List Nat × List Nat) → Except Unit (Option (List Nat))
  | [] => Except.ok none
  | (dataBytes, indexBytes) :: rest =>
    match bundleProbe decompress key dataBytes indexBytes with
    | Except.error e => Except.error e
    | Except.ok (some r) => Except.ok r
    | Except.ok none => diskGet decompress key rest

/-- `DB::get for BaumDb`: main table, then secondary table, then the SSTs. -/
def engineGet (decompress : List Nat → List Nat) (key : List Nat) (s : EngineState) :
    Except Unit (Option (List Nat)) :=
  match memGet key s.mainTable with
  | some v => Except.ok (some v)
  | none =>
    match memGet key s.secondaryTable with
    | some v => Except.ok (some v)
    | none => diskGet decompress key s.sstFiles

/-- A single-writer call sequence against the engine. -/
inductive WriteOp where
  | putOp (k v : List Nat)
  | deleteOp (k : List Nat)
deriving DecidableEq, Repr

/-- Run a sequence of writer calls. -/
def runOps (ops : List WriteOp) (s : EngineState) : EngineState :=
  ops.foldl (fun s op =>
    match op with
    | WriteOp.putOp k v => enginePut k v s
    | WriteOp.deleteOp k => engineDelete k s) s

/-- The result the specification's quantified invariant assigns to `get(k)`
after a writer sequence: the value of the last `put(k, _)` unless a later
`delete(k)` intervened, in which case `none`.  (Stated from the claim's words,
for comparison with the engine.) -/
def specLastWrite (ops : List WriteOp) (k : List Nat) : Option (List Nat) :=
  ops.foldl (fun acc op =>
    match op with
    | WriteOp.putOp k' v => if k' = k then some v else acc
    | WriteOp.deleteOp k' => if k' = k then none else acc) none

/-- The index entry the claim C5 designates: the last index entry whose key is
`≤ key` (equal keys match), with the first entry as fallback when no entry key
is `≤ key`.  (Stated from the claim's words, for comparison with
`selectIndexEntry`.) -/
def claimIndexEntry (index : List (List Nat × Nat)) (key : List Nat) :
    Option (List Nat × Nat) :=
  match (index.filter (fun e => ¬ bytesLt key e.1)).getLast? with
  | some e => some e
  | none => index.head?

/-! ### Bundle registry and compaction (src/file_handling/)

A committed bundle is identified by its id; its data file is carried as the
table it decodes to (`MemTable::try_from_file` of the data file — flushing a
table and decoding it back round-trips, see the C7 theorem).  Each level list
is newest-first, the order of the `VecDeque`s in `FileBundlesLevelled`. -/

/-- A committed SST bundle: its unique id and the table stored in its data
file. -/
structure FileBundle where
  id : Nat
  table : Table
deriving DecidableEq, Repr

/-- `Level` (src/file_handling/file_bundle.rs). -/
inductive Level where
  | l0
  | l1
  | l2
deriving DecidableEq, Repr

/-- `Level::next_level`. -/
def nextLevel : Level → Option Level
  | Level.l0 => some Level.l1
  | Level.l1 => some Level.l2
  | Level.l2 => none

/-- `FileBundlesLevelled`: the three per-level bundle lists, newest first. -/
structure Registry where
  l0 : List FileBundle
  l1 : List FileBundle
  l2 : List FileBundle
deriving DecidableEq, Repr

/-- The bundle list of one level. -/
def levelList (s : Registry) : Level → List FileBundle
  | Level.l0 => s.l0
  | Level.l1 => s.l1
  | Level.l2 => s.l2

/-- `FileBundlesLevelled::iter` order: L0 front→back, then L1, then L2. -/
def visibleBundles (s : Registry) : List FileBundle :=
  s.l0 ++ s.l1 ++ s.l2

/-- `commit_file_bundle`: push the bundle to the front of its level and
report whether the level crossed its compaction threshold (L0: ≥ 4, L1: ≥ 8,
L2: never). -/
def commitBundle (b : FileBundle) : Level → Registry → Registry × Bool
  | Level.l0, s => ({ s with l0 := b :: s.l0 }, 4 ≤ (b :: s.l0).length)
  | Level.l1, s => ({ s with l1 := b :: s.l1 }, 8 ≤ (b :: s.l1).length)
  | Level.l2, s => ({ s with l2 := b :: s.l2 }, false)

/-- One level's removal loop of `remove_bundles`: walk the deque, removing
every bundle whose id is in the set (the files of a removed bundle are
deleted from disk afterwards, outside this model).  Returns the kept list and
the number of removed bundles. -/
def removeFromLevel (ids : List Nat) : List FileBundle → List FileBundle × Nat
  | [] => ([], 0)
  | b :: rest =>
    let r := removeFromLevel ids rest
    if b.id ∈ ids then (r.1, r.2 + 1) else (b :: r.1, r.2)

/-- `remove_bundles`: remove matching bundles from all three levels and
return the number of deleted bundles. -/
def removeBundles (ids : List Nat) (s : Registry) : Nat × Registry :=
  let r0 := removeFromLevel ids s.l0
  let r1 := removeFromLevel ids s.l1
  let r2 := removeFromLevel ids s.l2
  (r0.2 + r1.2 + r2.2, { l0 := r0.1, l1 := r1.1, l2 := r2.1 })

/-- The compactor's merge of one newer bundle into the merger map
(src/file_handling/compaction.rs): `Put` overwrites, a tombstone removes the
key from the merger entirely. -/
def mergeInto (base : Table) (b : FileBundle) : Table :=
  b.table.foldl (fun acc e =>
    match e.2 with
    | MemValue.put _ => insertEntry e.1 e.2 acc
    | MemValue.delete => (removeEntry e.1 acc).2) base

/-- Merge a whole level, given oldest-first: the oldest bundle's table is the
initial merger, newer bundles are merged in order. -/
def mergeBundles : List FileBundle → Table
  | [] => []
  | oldest :: newer => newer.foldl mergeInto oldest.table

/-- Events of one compaction run, paired below with the registry state after
each event: writing the three files of the new bundle (no registry change),
committing it (`flush` commits only after the files are fully written,
src/file_handling/flushing.rs), and removing the compacted inputs. -/
inductive CompactionEvent where
  | writeFiles (b : FileBundle) (lvl : Level)
  | commitEvent (b : FileBundle) (lvl : Level)
  | removeEvent (ids : List Nat)
deriving DecidableEq, Repr

/-- The compactor loop (`Compaction::compact for FileBundles`), also emitting
the event/state trace.  `fresh` supplies the id of the next new bundle (a
random uuid in the source).  The fuel is only a recursion bound: the level
strictly advances every iteration and `next_level` of L2 is `none`, so fuel 3
is never exhausted. -/
def compactGo : Nat → Level → Registry → Nat → Registry × List (CompactionEvent × Registry)
  | 0, _, s, _ => (s, [])
  | fuel + 1, lvl, s, fresh =>
    match nextLevel lvl with
    | none => (s, [])
    | some nxt =>
      let bundles := levelList s lvl
      if bundles = [] then (s, [])
      else
        -- reverse the snapshot so iteration is oldest-first
        let rev := bundles.reverse
        let compactedIds := rev.map (fun b => b.id)
        let merger := mergeBundles rev
        if merger = [] then (s, [])
        else
          let nb : FileBundle := { id := fresh, table := merger }
          let c := commitBundle nb nxt s
          let r := removeBundles compactedIds c.1
          let tr := [(CompactionEvent.writeFiles nb nxt, s),
                     (CompactionEvent.commitEvent nb nxt, c.1),
                     (CompactionEvent.removeEvent compactedIds, r.2)]
          if c.2 then
            let k := compactGo fuel nxt r.2 (fresh + 1)
            (k.1, tr ++ k.2)
          else (r.2, tr)

/-- One run of the compactor, starting at L0. -/
def compact (s : Registry) (fresh : Nat) : Registry :=
  (compactGo 3 Level.l0 s fresh).1

/-- The event/state trace of one compactor run. -/
def compactTrace (s : Registry) (fresh : Nat) : List (CompactionEvent × Registry) :=
  (compactGo 3 Level.l0 s fresh).2

/-- The record-level read over the visible bundles, newest first: the first
bundle holding a record for the key decides it (`Put` yields the value, a
tombstone yields `none`, src/db.rs); later bundles are consulted only when
the key is absent. -/
def bundlesGet (k : List Nat) : List FileBundle → Option (List Nat)
  | [] => none
  | b :: rest =>
    match lookupEntry k b.table with
    | some (MemValue.put v) => some v
    | some MemValue.delete => none
    | none => bundlesGet k rest

/-- `get(k)` over a registry state: probe the visible bundles newest first. -/
def storeGet (s : Registry) (k : List Nat) : Option (List Nat) :=
  bundlesGet k (visibleBundles s)

/-! ## Lemmas about the byte order and the sorted association list -/

theorem bytesLt_irrefl (a : List Nat) : bytesLt a a = false := by
  induction a with
  | nil => rfl
  | cons x xs ih => simp [bytesLt, Nat.lt_irrefl, ih]

theorem bytesLt_ne {a b : List Nat} (h : bytesLt a b = true) : a ≠ b := by
  intro hab
  rw [hab, bytesLt_irrefl] at h
  exact Bool.false_ne_true h

theorem bytesLt_asymm {a b : List Nat} (h : bytesLt a b = true) : bytesLt b a = false := by
  induction a generalizing b with
  | nil =>
    cases b with
    | nil => simp [bytesLt] at h
    | cons y ys => rfl
  | cons x xs ih =>
    cases b with
    | nil => simp [bytesLt] at h
    | cons y ys =>
      by_cases hxy : x < y
      · have hyx : ¬ y < x := Nat.lt_asymm hxy
        simp [bytesLt, hxy, hyx]
      · by_cases hyx : y < x
        · simp [bytesLt, hxy, hyx] at h
        · simp [bytesLt, hxy, hyx] at h ⊢
          exact ih h

theorem lookupEntry_none_of_forall_ne {k : List Nat} {m : Table}
    (h : ∀ e ∈ m, e.1 ≠ k) : lookupEntry k m = none := by
  induction m with
  | nil => rfl
  | cons e t ih =>
    have hk : k ≠ e.1 := fun hk => (h e (List.mem_cons_self e t)) hk.symm
    simp only [lookupEntry, if_neg hk]
    exact ih (fun e' he' => h e' (List.mem_cons_of_mem e he'))

theorem removeEntry_fst (k : List Nat) (m : Table) :
    (removeEntry k m).1 = lookupEntry k m := by
  induction m with
  | nil => rfl
  | cons e t ih =>
    by_cases hk : k = e.1
    · simp [removeEntry, lookupEntry, hk]
    · simp [removeEntry, lookupEntry, hk, ih]

theorem removeEntry_of_absent {k : List Nat} {m : Table}
    (h : lookupEntry k m = none) : removeEntry k m = (none, m) := by
  induction m with
  | nil => rfl
  | cons e t ih =>
    by_cases hk : k = e.1
    · simp [lookupEntry, hk] at h
    · simp only [lookupEntry, if_neg hk] at h
      simp [removeEntry, hk, ih h]

theorem lookupEntry_removeEntry_self {k : List Nat} {m : Table}
    (hs : SortedTable m) : lookupEntry k (removeEntry k m).2 = none := by
  induction m with
  | nil => rfl
  | cons e t ih =>
    have hpw := (List.pairwise_cons.mp hs).1
    have hst : SortedTable t := (List.pairwise_cons.mp hs).2
    by_cases hk : k = e.1
    · simp only [removeEntry, if_pos hk]
      exact lookupEntry_none_of_forall_ne
        (fun e' he' => fun hek => (bytesLt_ne (hpw e' he')) (hek.trans hk).symm)
    · simp only [removeEntry, if_neg hk]
      simp only [lookupEntry, if_neg hk]
      exact ih hst

theorem lookupEntry_insertEntry_of_absent {k : List Nat} (v : MemValue) {m : Table}
    (h : lookupEntry k m = none) : lookupEntry k (insertEntry k v m) = some v := by
  induction m with
  | nil => simp [insertEntry, lookupEntry]
  | cons e t ih =>
    by_cases hk : k = e.1
    · simp [lookupEntry, hk] at h
    · simp only [lookupEntry, if_neg hk] at h
      by_cases hlt : bytesLt k e.1
      · simp [insertEntry, hlt, lookupEntry]
      · simp only [insertEntry, hlt, if_neg hk, if_false, Bool.false_eq_true]
        simp only [lookupEntry, if_neg hk]
        exact ih h

/-! ## C3 — `MemTableWrite::delete` and the tombstone slot -/

/-- C3 counterexample: deleting a key that is *present* with a `Put` slot does
not leave a tombstone — the entry is removed outright, so the claim "after
`m.delete(k)` the table maps `k` to a Tombstone slot ... regardless of whether
`k` was ... present with a Put value" is false on the code. -/
theorem delete_put_key_leaves_no_tombstone :
    lookupEntry [97] (memDelete [97] [([97], MemValue.put [118])]) ≠
      some MemValue.delete := by decide

/-- C3 amended: after `m.delete(k)`, if `k` was absent the table maps `k` to a
Tombstone; if `k` was present (with a `Put` or a Tombstone) the entry is
removed entirely, so `k` is unmapped. -/
theorem delete_tombstone_only_if_absent (m : Table) (k : List Nat)
    (hs : SortedTable m) :
    (lookupEntry k m = none → lookupEntry k (memDelete k m) = some MemValue.delete) ∧
    (lookupEntry k m ≠ none → lookupEntry k (memDelete k m) = none) := by
  constructor
  · intro habs
    rw [memDelete]
    rw [removeEntry_of_absent habs]
    simp only [Option.isNone_none, if_pos rfl]
    exact lookupEntry_insertEntry_of_absent MemValue.delete habs
  · intro hpres
    rw [memDelete]
    have hfst : (removeEntry k m).1 = lookupEntry k m := removeEntry_fst k m
    have : (removeEntry k m).1.isNone = false := by
      rw [hfst]
      cases hlk : lookupEntry k m with
      | none => exact absurd hlk hpres
      | some v => rfl
    simp only [this, Bool.false_eq_true, if_false]
    exact lookupEntry_removeEntry_self hs

/-- Witness for the C3 amended theorem at a concrete table. -/
theorem delete_tombstone_only_if_absent_witness :
    SortedTable [([97], MemValue.put [118])] ∧
    lookupEntry [97] (memDelete [97] [([97], MemValue.put [118])]) = none :=
  ⟨by decide,
   (delete_tombstone_only_if_absent [([97], MemValue.put [118])] [97] (by decide)).2
     (by decide)⟩

/-! ## C5 — the index-entry selection of `BaumDb::get` -/

/-- C5 counterexample: for the index `[("a", 0), ("c", 8)]` and search key
`"c"`, the last index entry with key ≤ key is `("c", 8)`, but the code selects
`("a", 0)` — `next_if` consumes at most the first entry, so the scan never
reaches later entries. -/
theorem index_scan_selects_first_not_last :
    (selectIndexEntry [([97], 0), ([99], 8)] [99]).map Prod.fst = some ([97], 0) ∧
    claimIndexEntry [([97], 0), ([99], 8)] [99] = some ([99], 8) ∧
    (selectIndexEntry [([97], 0), ([99], 8)] [99]).map Prod.fst ≠
      claimIndexEntry [([97], 0), ([99], 8)] [99] := by decide

/-- C5 amended: the entry whose block is read is always the *first* index
entry (consumed by `next_if` when its key is `< key`, and returned by the
`or_else` fallback otherwise); the rest of the iterator is the remaining
index entries, whose head supplies `next_offset`. -/
theorem index_scan_always_first (index : List (List Nat × Nat)) (key : List Nat) :
    selectIndexEntry index key = index.head?.map (fun e => (e, index.tail)) := by
  cases index with
  | nil => rfl
  | cons e rest =>
    by_cases h : bytesLt e.1 key <;> simp [selectIndexEntry, h]

/-! ## C10 — `remove_bundles` removes exactly the given ids -/

theorem removeFromLevel_eq (ids : List Nat) (l : List FileBundle) :
    removeFromLevel ids l =
      (l.filter (fun b => decide (b.id ∉ ids)), l.countP (fun b => decide (b.id ∈ ids))) := by
  induction l with
  | nil => rfl
  | cons b t ih =>
    by_cases h : b.id ∈ ids
    · simp [removeFromLevel, ih, List.filter_cons, List.countP_cons, h]
    · simp [removeFromLevel, ih, List.filter_cons, List.countP_cons, h]

/-- C10: `remove_bundles` keeps, per level, exactly the bundles whose id is
not in the removal set — in their original relative order (the kept lists are
`filter`s of the originals) — and returns the number of removed bundles. -/
theorem remove_bundles_removes_exactly_ids (ids : List Nat) (s : Registry) :
    (removeBundles ids s).2.l0 = s.l0.filter (fun b => decide (b.id ∉ ids)) ∧
    (removeBundles ids s).2.l1 = s.l1.filter (fun b => decide (b.id ∉ ids)) ∧
    (removeBundles ids s).2.l2 = s.l2.filter (fun b => decide (b.id ∉ ids)) ∧
    (removeBundles ids s).1 =
      s.l0.countP (fun b => decide (b.id ∈ ids)) +
      s.l1.countP (fun b => decide (b.id ∈ ids)) +
      s.l2.countP (fun b => decide (b.id ∈ ids)) := by
  simp [removeBundles, removeFromLevel_eq]

/-! ## C6 — the Bloom filter has no false negatives -/

theorem bloomSet_preserves {f : Nat → Nat} {idx : Nat} (j : Nat)
    (h : f idx = 1) : bloomSet f j idx = 1 := by
  by_cases hj : idx = j <;> simp [bloomSet, hj, h]

theorem foldl_bloomSet_preserves {f : Nat → Nat} {idx : Nat} (l : List Nat)
    (h : f idx = 1) : (l.foldl bloomSet f) idx = 1 := by
  induction l generalizing f with
  | nil => exact h
  | cons j t ih => exact ih (bloomSet_preserves j h)

theorem foldl_bloomSet_sets {idx : Nat} (l : List Nat) (f : Nat → Nat)
    (h : idx ∈ l) : (l.foldl bloomSet f) idx = 1 := by
  induction l generalizing f with
  | nil => cases h
  | cons j t ih =>
    simp only [List.foldl_cons]
    rcases List.mem_cons.mp h with hj | ht
    · subst hj
      exact foldl_bloomSet_preserves t (by simp [bloomSet])
    · exact ih (bloomSet f j) ht

theorem bloomAddKey_preserves (hstep : List Nat → Nat → Nat) (size nHashes : Nat)
    (key : List Nat) {f : Nat → Nat} {idx : Nat} (h : f idx = 1) :
    bloomAddKey hstep size nHashes key f idx = 1 :=
  foldl_bloomSet_preserves _ h

theorem bloomAddKey_sets (hstep : List Nat → Nat → Nat) (size nHashes : Nat)
    (key : List Nat) (f : Nat → Nat) {idx : Nat} (h : idx ∈ hashKey hstep size nHashes key) :
    bloomAddKey hstep size nHashes key f idx = 1 :=
  foldl_bloomSet_sets _ f h

/-- Fold a sequence of `add_key` calls over a fresh default filter. -/
def bloomAddKeys (hstep : List Nat → Nat → Nat) (size nHashes : Nat)
    (keys : List (List Nat)) : Nat → Nat :=
  keys.foldl (fun f key => bloomAddKey hstep size nHashes key f) bloomNew

theorem foldl_bloomAddKey_preserves (hstep : List Nat → Nat → Nat) (size nHashes : Nat)
    (keys : List (List Nat)) {f : Nat → Nat} {idx : Nat} (h : f idx = 1) :
    (keys.foldl (fun f key => bloomAddKey hstep size nHashes key f) f) idx = 1 := by
  induction keys generalizing f with
  | nil => exact h
  | cons key t ih =>
    simp only [List.foldl_cons]
    exact ih (bloomAddKey_preserves hstep size nHashes key h)

theorem foldl_bloomAddKey_mem (hstep : List Nat → Nat → Nat) (size nHashes : Nat)
    {k : List Nat} (keys : List (List Nat)) (f : Nat → Nat) (hmem : k ∈ keys)
    {idx : Nat} (hidx : idx ∈ hashKey hstep size nHashes k) :
    (keys.foldl (fun f key => bloomAddKey hstep size nHashes key f) f) idx = 1 := by
  induction keys generalizing f with
  | nil => cases hmem
  | cons key t ih =>
    simp only [List.foldl_cons]
    rcases List.mem_cons.mp hmem with hk | ht
    · subst hk
      exact foldl_bloomAddKey_preserves hstep size nHashes t
        (bloomAddKey_sets hstep size nHashes k f hidx)
    · exact ih _ ht

/-- C6: for every hash function, every sequence of `add_key` calls containing
`add_key(k)` makes `may_contain_key(k)` return `true` — a key that was added
is never reported absent.  (False positives remain possible: the check is
one-sided.) -/
theorem bloom_no_false_negatives (hstep : List Nat → Nat → Nat)
    (size nHashes : Nat) (keys : List (List Nat)) (k : List Nat)
    (_hsize : 0 < size) (hmem : k ∈ keys) :
    bloomMayContain hstep size nHashes k (bloomAddKeys hstep size nHashes keys) = true := by
  rw [bloomMayContain, List.all_eq_true]
  intro idx hidx
  rw [beq_iff_eq]
  exact foldl_bloomAddKey_mem hstep size nHashes keys bloomNew hmem hidx

/-- Witness for C6 with a concrete hash function and key sequence. -/
theorem bloom_no_false_negatives_witness :
    ((0 : Nat) < 8 ∧ [97] ∈ [[98], [97]]) ∧
    bloomMayContain (fun _ i => 3 + i) 8 2 [97]
      (bloomAddKeys (fun _ i => 3 + i) 8 2 [[98], [97]]) = true :=
  ⟨⟨by decide, by decide⟩,
   bloom_no_false_negatives (fun _ i => 3 + i) 8 2 [[98], [97]] [97] (by decide) (by decide)⟩

/-! ## Concrete stores used by the compaction and engine claims -/

/-- The identity stand-in for the gzip block codec. -/
def idCodec : List Nat → List Nat := fun b => b

/-- An L0 bundle holding only a tombstone for key `"a"`. -/
def bTomb : FileBundle := { id := 2, table := [([97], MemValue.delete)] }

/-- An older L0 bundle holding `Put`s for `"a"` and `"b"`. -/
def bOldBoth : FileBundle :=
  { id := 1, table := [([97], MemValue.put [120]), ([98], MemValue.put [121])] }

/-- An L1 bundle holding an old `Put` for `"a"`. -/
def bBase : FileBundle := { id := 0, table := [([97], MemValue.put [49])] }

/-- A registry where the newest L0 record for `"a"` is a tombstone while L1
still holds a `Put` for it. -/
def regC2 : Registry := { l0 := [bTomb, bOldBoth], l1 := [bBase], l2 := [] }

/-- An older L0 bundle holding only a `Put` for `"a"`. -/
def bOldOne : FileBundle := { id := 1, table := [([97], MemValue.put [120])] }

/-- A registry whose L0 entries all cancel during a merge. -/
def regC8 : Registry := { l0 := [bTomb, bOldOne], l1 := [], l2 := [] }

/-! ## C2 — compaction does not preserve `get` -/

/-- C2 failing input: in `regC2` the newest record for `"a"` is the L0
tombstone, so `get("a")` is `none`; compacting L0 merges the tombstone by
*removing* the key from the merger map, the merged L1 output retains no
tombstone, and afterwards `get("a")` resurfaces the old L1 value `"1"`.  The
claim (and the spec's "tombstones must be retained" requirement) says the
result must be unchanged. -/
theorem compaction_changes_get :
    storeGet regC2 [97] = none ∧
    storeGet (compact regC2 100) [97] = some [49] := by decide

/-! ## C8 — the empty-merger branch of `compact` -/

/-- C8 counterexample: in `regC8` the merger map is empty after merging L0
(the tombstone cancels the older `Put`), yet `compact` returns with the
registry unchanged — both compacted input bundles are still present, whereas
the claim says they are removed before returning. -/
theorem compact_empty_merger_removes_nothing :
    mergeBundles regC8.l0.reverse = [] ∧
    compact regC8 100 = regC8 ∧
    regC8.l0.length = 2 := by decide

/-- C8 amended: when the merger map is empty after merging a non-empty L0,
the compaction run returns immediately and leaves the registry unchanged —
the compacted input bundles are *not* removed. -/
theorem compact_empty_merger_keeps_inputs (s : Registry) (fresh : Nat)
    (hne : s.l0 ≠ []) (hmerge : mergeBundles s.l0.reverse = []) :
    compact s fresh = s := by
  rw [compact]
  show (compactGo (2 + 1) Level.l0 s fresh).1 = s
  rw [compactGo]
  simp [nextLevel, levelList, hne, hmerge]

/-- Witness for the C8 amended theorem at `regC8`. -/
theorem compact_empty_merger_keeps_inputs_witness :
    (regC8.l0 ≠ [] ∧ mergeBundles regC8.l0.reverse = []) ∧
    compact regC8 100 = regC8 :=
  ⟨⟨by decide, by decide⟩,
   compact_empty_merger_keeps_inputs regC8 100 (by decide) (by decide)⟩

/-! ## C9 — the output commit precedes the removal of the inputs -/

theorem mem_visible_commit_self (nb : FileBundle) (lvl : Level) (s : Registry) :
    nb ∈ visibleBundles (commitBundle nb lvl s).1 := by
  cases lvl <;> simp [commitBundle, visibleBundles]

theorem mem_visible_iff {b : FileBundle} {s : Registry} :
    b ∈ visibleBundles s ↔ b ∈ s.l0 ∨ b ∈ s.l1 ∨ b ∈ s.l2 := by
  simp [visibleBundles, List.mem_append, or_assoc]

theorem mem_visible_commit_mono {b : FileBundle} {s : Registry}
    (nb : FileBundle) (lvl : Level) (h : b ∈ visibleBundles s) :
    b ∈ visibleBundles (commitBundle nb lvl s).1 := by
  rw [mem_visible_iff] at h
  rcases h with h | h | h <;> cases lvl <;>
    rw [mem_visible_iff] <;> simp only [commitBundle, List.mem_cons] <;> tauto

theorem mem_visible_commit_inv {b nb : FileBundle} {lvl : Level} {s : Registry}
    (h : b ∈ visibleBundles (commitBundle nb lvl s).1) :
    b = nb ∨ b ∈ visibleBundles s := by
  cases lvl <;>
    · rw [mem_visible_iff] at h
      simp only [commitBundle, List.mem_cons] at h
      rw [mem_visible_iff]
      tauto

theorem mem_levelList_visible {b : FileBundle} {s : Registry} {lvl : Level}
    (h : b ∈ levelList s lvl) : b ∈ visibleBundles s := by
  rw [mem_visible_iff]
  cases lvl with
  | l0 => exact Or.inl h
  | l1 => exact Or.inr (Or.inl h)
  | l2 => exact Or.inr (Or.inr h)

theorem mem_visible_remove {b : FileBundle} {s : Registry} {ids : List Nat}
    (h : b ∈ visibleBundles s) (hid : b.id ∉ ids) :
    b ∈ visibleBundles (removeBundles ids s).2 := by
  rw [mem_visible_iff] at h ⊢
  simp only [removeBundles, removeFromLevel_eq]
  rcases h with h | h | h
  · exact Or.inl (List.mem_filter.mpr ⟨h, by simpa using hid⟩)
  · exact Or.inr (Or.inl (List.mem_filter.mpr ⟨h, by simpa using hid⟩))
  · exact Or.inr (Or.inr (List.mem_filter.mpr ⟨h, by simpa using hid⟩))

theorem mem_visible_remove_inv {b : FileBundle} {s : Registry} {ids : List Nat}
    (h : b ∈ visibleBundles (removeBundles ids s).2) : b ∈ visibleBundles s := by
  rw [mem_visible_iff] at h ⊢
  simp only [removeBundles, removeFromLevel_eq] at h
  rcases h with h | h | h
  · exact Or.inl (List.mem_filter.mp h).1
  · exact Or.inr (Or.inl (List.mem_filter.mp h).1)
  · exact Or.inr (Or.inr (List.mem_filter.mp h).1)

theorem commitBundle_fst_bounded {s : Registry} {fresh : Nat}
    (nb : FileBundle) (lvl : Level)
    (hb : nb.id < fresh) (h : ∀ b ∈ visibleBundles s, b.id < fresh) :
    ∀ b ∈ visibleBundles (commitBundle nb lvl s).1, b.id < fresh := by
  intro b hbmem
  rcases mem_visible_commit_inv hbmem with rfl | hbmem
  · exact hb
  · exact h b hbmem

theorem removeBundles_snd_bounded {s : Registry} {fresh : Nat} (ids : List Nat)
    (h : ∀ b ∈ visibleBundles s, b.id < fresh) :
    ∀ b ∈ visibleBundles (removeBundles ids s).2, b.id < fresh :=
  fun b hbmem => h b (mem_visible_remove_inv hbmem)

/-- One unrolling of `compactGo`: either the iteration returns early with an
empty trace, or it performs the bundle merge of the current level, committing
the new bundle at the next level and then removing the compacted inputs, with
the recursion's trace appended when the commit asks for further compaction. -/
theorem compactGo_succ_shape (fuel : Nat) (lvl : Level) (s : Registry) (fresh : Nat) :
    (compactGo (fuel + 1) lvl s fresh).2 = [] ∨
    ∃ nxt,
      nextLevel lvl = some nxt ∧
      (compactGo (fuel + 1) lvl s fresh).2 =
        (let nb : FileBundle :=
          { id := fresh, table := mergeBundles (levelList s lvl).reverse }
        let cIds := (levelList s lvl).reverse.map (fun b => b.id)
        let c := commitBundle nb nxt s
        let r := removeBundles cIds c.1
        [(CompactionEvent.writeFiles nb nxt, s),
         (CompactionEvent.commitEvent nb nxt, c.1),
         (CompactionEvent.removeEvent cIds, r.2)] ++
          (if c.2 then (compactGo fuel nxt r.2 (fresh + 1)).2 else [])) := by
  rw [compactGo]
  cases hn : nextLevel lvl with
  | none => exact Or.inl rfl
  | some nxt =>
    dsimp only
    by_cases hb : levelList s lvl = []
    · rw [if_pos hb]
      exact Or.inl rfl
    · rw [if_neg hb]
      by_cases hm : mergeBundles (levelList s lvl).reverse = []
      · rw [if_pos hm]
        exact Or.inl rfl
      · rw [if_neg hm]
        refine Or.inr ⟨nxt, rfl, ?_⟩
        by_cases hc :
            (commitBundle
              { id := fresh, table := mergeBundles (levelList s lvl).reverse }
              nxt s).2 = true
        · rw [if_pos hc, if_pos hc]
        · rw [if_neg hc, if_neg hc]
          simp

theorem compactGo_commit_before_remove (fuel : Nat) (lvl : Level) (s : Registry)
    (fresh : Nat) (hid : ∀ b ∈ visibleBundles s, b.id < fresh) :
    ∀ i ids st,
      (compactGo fuel lvl s fresh).2.get? i =
        some (CompactionEvent.removeEvent ids, st) →
      0 < i ∧ ∃ nb lvl' stC,
        (compactGo fuel lvl s fresh).2.get? (i - 1) =
          some (CompactionEvent.commitEvent nb lvl', stC) ∧
        nb ∈ visibleBundles stC ∧
        (∀ id ∈ ids, ∃ bi ∈ visibleBundles stC, bi.id = id) ∧
        nb ∈ visibleBundles st := by
  induction fuel generalizing lvl s fresh with
  | zero =>
    intro i ids st h
    simp [compactGo] at h
  | succ fuel ih =>
    intro i ids st h
    rcases compactGo_succ_shape fuel lvl s fresh with hnil | ⟨nxt, _hn, htr⟩
    · rw [hnil] at h
      simp at h
    · rw [htr] at h ⊢
      dsimp only at h ⊢
      set nb : FileBundle :=
        { id := fresh, table := mergeBundles (levelList s lvl).reverse } with hnb
      set cIds := List.map (fun b => b.id) (levelList s lvl).reverse with hcIds
      set c := commitBundle nb nxt s with hc
      set r := removeBundles cIds c.1 with hr
      set k2 := (compactGo fuel nxt r.2 (fresh + 1)).2 with hk2
      have hnbC : nb ∈ visibleBundles c.1 := mem_visible_commit_self nb nxt s
      have hinC : ∀ id ∈ cIds, ∃ bi ∈ visibleBundles c.1, bi.id = id := by
        intro id hmem
        rcases List.mem_map.mp hmem with ⟨bi, hbi, hbid⟩
        exact ⟨bi, mem_visible_commit_mono nb nxt
          (mem_levelList_visible (List.mem_reverse.mp hbi)), hbid⟩
      have hfreshNotIn : nb.id ∉ cIds := by
        intro hmemf
        rcases List.mem_map.mp hmemf with ⟨bi, hbi, hbid⟩
        have hlt : bi.id < fresh :=
          hid bi (mem_levelList_visible (List.mem_reverse.mp hbi))
        rw [hnb] at hbid
        simp only at hbid
        omega
      have hnbR : nb ∈ visibleBundles r.2 := mem_visible_remove hnbC hfreshNotIn
      match i with
      | 0 => simp at h
      | 1 => simp at h
      | 2 =>
        have hinj : CompactionEvent.removeEvent cIds = CompactionEvent.removeEvent ids
            ∧ r.2 = st := by
          have := h
          simp only [List.cons_append, List.nil_append, List.get?_cons_succ,
            List.get?_cons_zero, Option.some.injEq, Prod.mk.injEq] at this
          exact this
        obtain ⟨hida, hsta⟩ := hinj
        injection hida with hids
        refine ⟨by omega, nb, nxt, c.1, ?_, hnbC, ?_, ?_⟩
        · simp
        · rw [← hids]; exact hinC
        · rw [← hsta]; exact hnbR
      | (m + 3) =>
        simp only [List.cons_append, List.nil_append, List.get?_cons_succ] at h
        by_cases hcont : c.2 = true
        · rw [if_pos hcont] at h ⊢
          have hid2 : ∀ b ∈ visibleBundles r.2, b.id < fresh + 1 := by
            rw [hr]
            exact removeBundles_snd_bounded cIds
              (commitBundle_fst_bounded nb nxt (Nat.lt_succ_self fresh)
                (fun b hbm => Nat.lt_succ_of_lt (hid b hbm)))
          rcases ih nxt r.2 (fresh + 1) hid2 m ids st h with
            ⟨hpos, nb', lvl', stC, hget, hvis, hins, hvis2⟩
          obtain ⟨m', rfl⟩ : ∃ m', m = m' + 1 := ⟨m - 1, by omega⟩
          refine ⟨by omega, nb', lvl', stC, ?_, hvis, hins, hvis2⟩
          show (_ :: _ :: _ :: k2).get? (m' + 1 + 3 - 1) = _
          have hidx : m' + 1 + 3 - 1 = m' + 3 := by omega
          rw [hidx]
          simp only [List.get?_cons_succ]
          simpa using hget
        · rw [if_neg hcont] at h
          simp at h

/-- C9: in every compaction run (for any registry whose committed bundle ids
are below the freshly generated ids, as uuids are), whenever the trace removes
the compacted input bundles at step `i`, step `i - 1` (strictly earlier) is
the commit of the merged output bundle; at that post-commit instant the
output *and* all inputs are visible, and after the removal the output is
still visible — at no point in the run are both invisible. -/
theorem compaction_commits_output_before_removing_inputs (s : Registry)
    (fresh : Nat) (hid : ∀ b ∈ visibleBundles s, b.id < fresh)
    (i : Nat) (ids : List Nat) (st : Registry)
    (h : (compactTrace s fresh).get? i = some (CompactionEvent.removeEvent ids, st)) :
    0 < i ∧ ∃ nb lvl stC,
      (compactTrace s fresh).get? (i - 1) =
        some (CompactionEvent.commitEvent nb lvl, stC) ∧
      nb ∈ visibleBundles stC ∧
      (∀ id ∈ ids, ∃ bi ∈ visibleBundles stC, bi.id = id) ∧
      nb ∈ visibleBundles st :=
  compactGo_commit_before_remove 3 Level.l0 s fresh hid i ids st h

/-- Witness for C9 at the concrete registry `regC2`, whose compaction run
removes bundles 1 and 2 at trace step 2. -/
theorem compaction_commits_output_before_removing_inputs_witness :
    ((∀ b ∈ visibleBundles regC2, b.id < 100) ∧
      (compactTrace regC2 100).get? 2 =
        some (CompactionEvent.removeEvent [1, 2],
          { l0 := [],
            l1 := [{ id := 100, table := [([98], MemValue.put [121])] }, bBase],
            l2 := [] })) ∧
    (0 < 2 ∧ ∃ nb lvl stC,
      (compactTrace regC2 100).get? (2 - 1) =
        some (CompactionEvent.commitEvent nb lvl, stC) ∧
      nb ∈ visibleBundles stC ∧
      (∀ id ∈ [1, 2], ∃ bi ∈ visibleBundles stC, bi.id = id) ∧
      nb ∈ visibleBundles
        { l0 := [],
          l1 := [{ id := 100, table := [([98], MemValue.put [121])] }, bBase],
          l2 := [] }) :=
  ⟨⟨by decide, by decide⟩,
   compaction_commits_output_before_removing_inputs regC2 100 (by decide) 2 [1, 2]
     { l0 := [],
       l1 := [{ id := 100, table := [([98], MemValue.put [121])] }, bBase],
       l2 := [] }
     (by decide)⟩

/-! ## C1 — single-writer put/delete/get semantics through the engine -/

/-- The hash-state stand-in used where a concrete Bloom hasher is needed. -/
def zeroHasher : List Nat → Nat → Nat := fun _ _ => 0

/-- The C1 failing call sequence, run with `max_memtable_size = 2`:
`put("a","1")`, then `put("b","2")` — which crosses the size threshold and
rotates the memtable into the secondary table — then `delete("a")`. -/
def opsC1 : List WriteOp :=
  [WriteOp.putOp [97] [49], WriteOp.putOp [98] [50], WriteOp.deleteOp [97]]

/-- C1 failing input: after `put("a","1"); put("b","2"); delete("a")` with
`max_memtable_size = 2`, the claim demands `get("a") = None` (a later delete
intervened), but the engine returns `Some "1")`: the delete leaves a tombstone
in the active table, `MemTable::get` collapses that tombstone to `None`, and
`BaumDb::get` then falls through to the frozen secondary table, which still
holds the pre-rotation `Put("a","1")`.  The result is the same whether or not
the background flush task has already written the rotated table to disk. -/
theorem get_after_delete_returns_stale_put :
    engineGet idCodec [97] (runOps opsC1 (initEngine 2)) = Except.ok (some [49]) ∧
    engineGet idCodec [97]
      (engineFlushStep idCodec zeroHasher (runOps opsC1 (initEngine 2))) =
      Except.ok (some [49]) ∧
    specLastWrite opsC1 [97] = none :=
  ⟨rfl, rfl, rfl⟩

/-! ## C4 — the sparse-index block offsets -/

/-- A stand-in block codec that records only the input length (its output is
a single byte, so the compressed lengths stay small and evaluable). -/
def unitLenCodec : List Nat → List Nat := fun b => [b.length % 256]

/-- A 4079-byte value, large enough that its record crosses the 4096-byte
block threshold. -/
def bigValue : List Nat := List.replicate 4079 120

theorem bigValue_length : bigValue.length = 4079 := by
  rw [bigValue, List.length_replicate]

/-- A memtable whose serialization emits two blocks: the record of `"a"` is
4097 encoded bytes (≥ 4096, flushing the first block), and `"b"` flushes the
final block. -/
def twoBlockTable : Table :=
  [([97], MemValue.put bigValue), ([98], MemValue.put [121])]

/-- C4 failing input evaluated: serializing `twoBlockTable` records the index
entries `("a", 0)` and `("b", 1)` — the second offset is the compressed
length of block 0 alone (`offset_counter += encoded_len` skips the 8-byte
`u64` length prefix) — while the `u64 compressed_block_len` fields of the
data file actually sit at byte positions 0 and 9.  Seeking to the recorded
offset 1 does not land on the second block's length prefix, contradicting the
claim that offsets advance by the framed length. -/
theorem serialized_offsets_skip_length_prefix :
    readKeyOffsets ((serialize unitLenCodec zeroHasher twoBlockTable).offsets).length
        (serialize unitLenCodec zeroHasher twoBlockTable).offsets =
      [([97], 0), ([98], 1)] ∧
    framePositions ((serialize unitLenCodec zeroHasher twoBlockTable).mainData).length
        0 (serialize unitLenCodec zeroHasher twoBlockTable).mainData = [0, 9] ∧
    (readKeyOffsets ((serialize unitLenCodec zeroHasher twoBlockTable).offsets).length
        (serialize unitLenCodec zeroHasher twoBlockTable).offsets).map Prod.snd ≠
      framePositions ((serialize unitLenCodec zeroHasher twoBlockTable).mainData).length
        0 (serialize unitLenCodec zeroHasher twoBlockTable).mainData := by
  have ho : (serialize unitLenCodec zeroHasher twoBlockTable).offsets =
      toBE64 1 ++ [97] ++ toBE64 0 ++ toBE64 1 ++ [98] ++ toBE64 1 := by
    simp [serialize, serGo, serStep, serInit, twoBlockTable, memLen, unitLenCodec,
      encRecord, List.length_append, bigValue_length, toBE64]
  have hm : (serialize unitLenCodec zeroHasher twoBlockTable).mainData =
      toBE64 1 ++ [1] ++ toBE64 1 ++ [19] := by
    simp [serialize, serGo, serStep, serInit, twoBlockTable, memLen, unitLenCodec,
      encRecord, List.length_append, bigValue_length, toBE64]
  rw [ho, hm]
  refine ⟨by decide, by decide, by decide⟩

/-! ## C7 — serialize/decode round-trip: byte-level lemmas -/

theorem toBE64_length (n : Nat) : (toBE64 n).length = 8 := rfl

theorem beVal_toBE64 {n : Nat} (h : n < 2 ^ 64) : beVal (toBE64 n) = n := by
  simp only [toBE64, beVal, List.foldl]
  omega

theorem readU64_toBE64 {n : Nat} (h : n < 2 ^ 64) (r : List Nat) :
    readU64 (toBE64 n ++ r) = some (n, r) := by
  have hlen : (toBE64 n ++ r).length = 8 + r.length := by
    rw [List.length_append, toBE64_length]
  rw [readU64, if_pos (by omega)]
  rw [List.take_left' (toBE64_length n), List.drop_left' (toBE64_length n),
    beVal_toBE64 h]

/-- The byte budget of one encoded record; `2 ^ 20` is far above any realistic
record and far below the `u64` and block-size limits the proofs need. -/
def recBound (e : TableEntry) : Prop := (encRecord e).length ≤ 2 ^ 20

instance (e : TableEntry) : Decidable (recBound e) :=
  inferInstanceAs (Decidable ((encRecord e).length ≤ 2 ^ 20))

theorem encRecord_length_delete (k : List Nat) :
    (encRecord (k, MemValue.delete)).length = 9 + k.length := by
  simp [encRecord, List.length_append, toBE64_length]
  omega

theorem encRecord_length_put (k v : List Nat) :
    (encRecord (k, MemValue.put v)).length = 17 + k.length + v.length := by
  simp [encRecord, List.length_append, toBE64_length]
  omega

theorem encRecord_length_pos (e : TableEntry) : 9 ≤ (encRecord e).length := by
  obtain ⟨k, v⟩ := e
  cases v with
  | delete => rw [encRecord_length_delete]; omega
  | put v => rw [encRecord_length_put]; omega

theorem recBound_key_lt {e : TableEntry} (h : recBound e) : e.1.length < 2 ^ 64 := by
  obtain ⟨k, v⟩ := e
  rw [recBound] at h
  cases v with
  | delete => rw [encRecord_length_delete] at h; simp only; omega
  | put v => rw [encRecord_length_put] at h; simp only; omega

theorem parseRecord_encRecord {e : TableEntry} (hb : recBound e) (r : List Nat) :
    parseRecord (encRecord e ++ r) = some (e, r) := by
  obtain ⟨k, v⟩ := e
  have hklt : k.length < 2 ^ 64 := recBound_key_lt hb
  cases v with
  | delete =>
    rw [show encRecord (k, MemValue.delete) ++ r = toBE64 k.length ++ (k ++ (0 :: r)) by
      simp [encRecord, List.append_assoc]]
    rw [parseRecord, readU64_toBE64 hklt]
    dsimp only
    rw [if_pos (by simp [List.length_append])]
    rw [List.take_left' rfl, List.drop_left' rfl]
    dsimp only
    rw [if_pos rfl]
  | put v =>
    have hvlt : v.length < 2 ^ 64 := by
      rw [recBound, encRecord_length_put] at hb
      omega
    rw [show encRecord (k, MemValue.put v) ++ r =
        toBE64 k.length ++ (k ++ (1 :: (toBE64 v.length ++ (v ++ r)))) by
      simp [encRecord, List.append_assoc]]
    rw [parseRecord, readU64_toBE64 hklt]
    dsimp only
    rw [if_pos (by simp [List.length_append])]
    rw [List.take_left' rfl, List.drop_left' rfl]
    dsimp only
    rw [if_neg (by decide), if_pos rfl]
    rw [readU64_toBE64 hvlt]
    dsimp only
    rw [if_pos (by simp [List.length_append])]
    rw [List.take_left' rfl, List.drop_left' rfl]

theorem parseRecord_nil : parseRecord [] = none := by
  rw [parseRecord, readU64]
  simp

theorem parseRecs_nil (fuel : Nat) : parseRecs fuel [] = [] := by
  cases fuel with
  | zero => rfl
  | succ fuel => rw [parseRecs, parseRecord_nil]

theorem parseRecs_flatMap (es : List TableEntry) (hb : ∀ e ∈ es, recBound e) :
    ∀ fuel, (es.flatMap encRecord).length ≤ fuel →
      parseRecs fuel (es.flatMap encRecord) = es := by
  induction es with
  | nil =>
    intro fuel _
    exact parseRecs_nil fuel
  | cons e es ih =>
    intro fuel hfuel
    have hbe : recBound e := hb e (List.mem_cons_self e es)
    have hlen9 : 9 ≤ (encRecord e).length := encRecord_length_pos e
    have hflat : ((e :: es).flatMap encRecord) = encRecord e ++ es.flatMap encRecord := by
      simp [List.flatMap_cons]
    rw [hflat] at hfuel ⊢
    rw [List.length_append] at hfuel
    obtain ⟨f, rfl⟩ : ∃ f, fuel = f + 1 := ⟨fuel - 1, by omega⟩
    rw [parseRecs, parseRecord_encRecord hbe]
    dsimp only
    rw [ih (fun e' he' => hb e' (List.mem_cons_of_mem e he')) f (by omega)]

theorem decodeBlocks_nil (dec : List Nat → List Nat) (fuel : Nat) :
    decodeBlocks dec fuel [] = some [] := by
  cases fuel <;> rfl

theorem readU64_some {l : List Nat} {n : Nat} {rest : List Nat}
    (h : readU64 l = some (n, rest)) : rest = l.drop 8 ∧ 8 ≤ l.length := by
  rw [readU64] at h
  by_cases hl : 8 ≤ l.length
  · rw [if_pos hl] at h
    simp only [Option.some.injEq, Prod.mk.injEq] at h
    exact ⟨h.2.symm, hl⟩
  · rw [if_neg hl] at h
    cases h

theorem decodeBlocks_succ (dec : List Nat → List Nat) (f : Nat) (l : List Nat)
    (hne : l ≠ []) :
    decodeBlocks dec (f + 1) l =
      match readU64 l with
      | none => none
      | some (blen, rest) =>
        if blen ≤ rest.length then
          match decodeBlocks dec f (rest.drop blen) with
          | none => none
          | some es =>
            some (parseRecs (dec (rest.take blen)).length (dec (rest.take blen)) ++ es)
        else none := by
  cases l with
  | nil => exact absurd rfl hne
  | cons x xs =>
    rw [decodeBlocks]
    exact fun h => List.noConfusion h

theorem decodeBlocks_fuel (dec : List Nat → List Nat) :
    ∀ f1 f2 l, l.length ≤ f1 → l.length ≤ f2 →
      decodeBlocks dec f1 l = decodeBlocks dec f2 l := by
  intro f1
  induction f1 with
  | zero =>
    intro f2 l h1 _
    have hnil : l = [] := List.eq_nil_of_length_eq_zero (by omega)
    subst hnil
    rw [decodeBlocks_nil, decodeBlocks_nil]
  | succ f1 ih =>
    intro f2 l h1 h2
    cases l with
    | nil => rw [decodeBlocks_nil, decodeBlocks_nil]
    | cons x xs =>
      obtain ⟨f2', rfl⟩ : ∃ f2', f2 = f2' + 1 :=
        ⟨f2 - 1, by simp only [List.length_cons] at h2; omega⟩
      rw [decodeBlocks_succ dec f1 (x :: xs) (by simp),
        decodeBlocks_succ dec f2' (x :: xs) (by simp)]
      cases hru : readU64 (x :: xs) with
      | none => rfl
      | some p =>
        obtain ⟨blen, rest⟩ := p
        dsimp only
        by_cases hble : blen ≤ rest.length
        · rw [if_pos hble, if_pos hble]
          obtain ⟨hrest, hlen8⟩ := readU64_some hru
          have hdlen : (rest.drop blen).length + 8 ≤ (x :: xs).length := by
            subst hrest
            simp only [List.length_drop]
            omega
          rw [ih f2' (rest.drop blen) (by omega) (by omega)]
        · rw [if_neg hble, if_neg hble]

theorem decodeBlocks_frame (dec : List Nat → List Nat) (c tail : List Nat)
    (hc : c.length < 2 ^ 64) (fuel : Nat)
    (hfuel : 8 + c.length + tail.length ≤ fuel) :
    decodeBlocks dec fuel (toBE64 c.length ++ (c ++ tail)) =
      (decodeBlocks dec tail.length tail).map
        (fun es => parseRecs (dec c).length (dec c) ++ es) := by
  obtain ⟨f, rfl⟩ : ∃ f, fuel = f + 1 := ⟨fuel - 1, by omega⟩
  have hlen : (toBE64 c.length ++ (c ++ tail)).length = 8 + c.length + tail.length := by
    simp [List.length_append, toBE64_length]
    omega
  rw [decodeBlocks_succ dec f _ (by
    intro hcon
    rw [hcon] at hlen
    simp only [List.length_nil] at hlen
    omega)]
  rw [readU64_toBE64 hc]
  dsimp only
  rw [if_pos (by simp [List.length_append])]
  rw [List.take_left' rfl, List.drop_left' rfl]
  rw [decodeBlocks_fuel dec f tail.length tail (by omega) (by omega)]
  cases hdec : decodeBlocks dec tail.length tail <;> rfl

/-! ## C7 — rebuilding the `BTreeMap`: inserting a sorted record stream -/

theorem insertEntry_append_of_gt {k : List Nat} (v : MemValue) {m : Table}
    (h : ∀ e ∈ m, bytesLt e.1 k = true) : insertEntry k v m = m ++ [(k, v)] := by
  induction m with
  | nil => rfl
  | cons e t ih =>
    obtain ⟨k', v'⟩ := e
    have he : bytesLt k' k = true := h (k', v') (List.mem_cons_self _ t)
    rw [insertEntry]
    rw [if_neg (by simp [bytesLt_asymm he])]
    rw [if_neg (fun hkk => (bytesLt_ne he) hkk.symm)]
    rw [ih (fun e' he' => h e' (List.mem_cons_of_mem _ he'))]
    rfl

theorem foldl_insertEntry_sorted :
    ∀ (rest done : Table), SortedTable (done ++ rest) →
      rest.foldl (fun acc e => insertEntry e.1 e.2 acc) done = done ++ rest := by
  intro rest
  induction rest with
  | nil =>
    intro done _
    simp
  | cons e rest' ih =>
    intro done hs
    unfold SortedTable at hs
    have hgt : ∀ e' ∈ done, bytesLt e'.1 e.1 = true := by
      intro e' he'
      exact (List.pairwise_append.mp hs).2.2 e' he' e (List.mem_cons_self e rest')
    simp only [List.foldl_cons]
    rw [insertEntry_append_of_gt e.2 hgt]
    have hs' : SortedTable ((done ++ [e]) ++ rest') := by
      unfold SortedTable
      rw [List.append_assoc]
      simpa using hs
    rw [ih (done ++ [e]) hs']
    simp

/-! ## C7 — the serializer fold preserves decodability of the data buffer -/

theorem serStep_proj_flush (compress : List Nat → List Nat)
    (hstep : List Nat → Nat → Nat) (n i : Nat) (st : SerFoldState) (e : TableEntry)
    (hcond : 4096 ≤ st.encodedBytes + (encRecord e).length ∨ i = n - 1) :
    (serStep compress hstep n i st e).tableData.mainData =
        st.tableData.mainData ++
          toBE64 (compress (st.encInput ++ encRecord e)).length ++
          compress (st.encInput ++ encRecord e) ∧
    (serStep compress hstep n i st e).encInput = [] ∧
    (serStep compress hstep n i st e).encodedBytes = 0 := by
  unfold serStep
  rw [if_pos hcond]
  exact ⟨rfl, rfl, rfl⟩

theorem serStep_proj_noflush (compress : List Nat → List Nat)
    (hstep : List Nat → Nat → Nat) (n i : Nat) (st : SerFoldState) (e : TableEntry)
    (hcond : ¬(4096 ≤ st.encodedBytes + (encRecord e).length ∨ i = n - 1)) :
    (serStep compress hstep n i st e).tableData.mainData = st.tableData.mainData ∧
    (serStep compress hstep n i st e).encInput = st.encInput ++ encRecord e ∧
    (serStep compress hstep n i st e).encodedBytes =
      st.encodedBytes + (encRecord e).length := by
  unfold serStep
  rw [if_neg hcond]
  exact ⟨rfl, rfl, rfl⟩

theorem serGo_decodes (compress dec : List Nat → List Nat)
    (hstep : List Nat → Nat → Nat)
    (hcd : ∀ b, dec (compress b) = b)
    (hclen : ∀ b, b.length < 2 ^ 32 → (compress b).length < 2 ^ 64) (n : Nat) :
    ∀ (es : List TableEntry) (i : Nat) (st : SerFoldState)
      (done pending : List TableEntry),
      es ≠ [] →
      i + es.length = n →
      (∀ e ∈ es, recBound e) →
      (∀ e ∈ pending, recBound e) →
      (∀ tail, decodeBlocks dec (st.tableData.mainData ++ tail).length
          (st.tableData.mainData ++ tail) =
        (decodeBlocks dec tail.length tail).map (fun r => done ++ r)) →
      st.encInput = pending.flatMap encRecord →
      st.encodedBytes = st.encInput.length →
      st.encodedBytes < 4096 →
      decodeBlocks dec
          ((serGo compress hstep n i st es).tableData.mainData).length
          ((serGo compress hstep n i st es).tableData.mainData) =
        some (done ++ pending ++ es) := by
  intro es
  induction es with
  | nil =>
    intro i st done pending hne
    exact absurd rfl hne
  | cons e es' ih =>
    intro i st done pending _ hidx hbound hpbound hinv henc hcnt hlt
    have hbe : recBound e := hbound e (List.mem_cons_self e es')
    rw [serGo]
    by_cases hcond : 4096 ≤ st.encodedBytes + (encRecord e).length ∨ i = n - 1
    · -- the block is flushed after this entry
      obtain ⟨hmd, hin, hcn⟩ := serStep_proj_flush compress hstep n i st e hcond
      have hblen : (st.encInput ++ encRecord e).length < 2 ^ 32 := by
        rw [List.length_append]
        have h1 : (encRecord e).length ≤ 2 ^ 20 := hbe
        omega
      have hclt : (compress (st.encInput ++ encRecord e)).length < 2 ^ 64 :=
        hclen _ hblen
      have hparse :
          parseRecs (dec (compress (st.encInput ++ encRecord e))).length
            (dec (compress (st.encInput ++ encRecord e))) = pending ++ [e] := by
        rw [hcd]
        have hfl : st.encInput ++ encRecord e = (pending ++ [e]).flatMap encRecord := by
          rw [henc, List.flatMap_append]
          simp
        rw [hfl]
        exact parseRecs_flatMap (pending ++ [e])
          (fun e' he' => by
            rcases List.mem_append.mp he' with h' | h'
            · exact hpbound e' h'
            · rw [List.mem_singleton.mp h']; exact hbe)
          _ (le_refl _)
      have hinv' : ∀ tail,
          decodeBlocks dec
              ((serStep compress hstep n i st e).tableData.mainData ++ tail).length
              ((serStep compress hstep n i st e).tableData.mainData ++ tail) =
            (decodeBlocks dec tail.length tail).map
              (fun r => (done ++ (pending ++ [e])) ++ r) := by
        intro tail
        rw [hmd]
        rw [show st.tableData.mainData ++
              toBE64 (compress (st.encInput ++ encRecord e)).length ++
              compress (st.encInput ++ encRecord e) ++ tail =
            st.tableData.mainData ++
              (toBE64 (compress (st.encInput ++ encRecord e)).length ++
                (compress (st.encInput ++ encRecord e) ++ tail)) by
          simp [List.append_assoc]]
        rw [hinv]
        rw [decodeBlocks_frame dec _ tail hclt _ (by
          simp [List.length_append, toBE64_length]
          omega)]
        rw [hparse]
        cases decodeBlocks dec tail.length tail <;> simp [List.append_assoc]
      cases es' with
      | nil =>
        rw [serGo]
        have := hinv' []
        rw [List.append_nil] at this
        rw [this, decodeBlocks_nil]
        simp [List.append_assoc]
      | cons e2 es2 =>
        rw [ih (i + 1) (serStep compress hstep n i st e) (done ++ (pending ++ [e])) []
          (by simp)
          (by simp at hidx ⊢; omega)
          (fun e' he' => hbound e' (List.mem_cons_of_mem e he'))
          (by intro e' he'; cases he')
          hinv'
          (by rw [hin]; rfl)
          (by rw [hcn, hin]; rfl)
          (by rw [hcn]; omega)]
        congr 1
        simp [List.append_assoc]
    · -- the record stays buffered in the current encoder
      obtain ⟨hmd, hin, hcn⟩ := serStep_proj_noflush compress hstep n i st e hcond
      push_neg at hcond
      have hes' : es' ≠ [] := by
        intro hnil
        subst hnil
        simp only [List.length_cons, List.length_nil] at hidx
        exact hcond.2 (by omega)
      rw [ih (i + 1) (serStep compress hstep n i st e) done (pending ++ [e])
        hes'
        (by simp at hidx ⊢; omega)
        (fun e' he' => hbound e' (List.mem_cons_of_mem e he'))
        (by
          intro e' he'
          rcases List.mem_append.mp he' with h' | h'
          · exact hpbound e' h'
          · rw [List.mem_singleton.mp h']; exact hbe)
        (by intro tail; rw [hmd]; exact hinv tail)
        (by rw [hin, henc, List.flatMap_append]; simp)
        (by rw [hcn, hin, List.length_append, hcnt])
        (by rw [hcn]; omega)]
      congr 1
      simp [List.append_assoc]

/-- C7: serializing any memtable (sorted, with per-record sizes below the
2^20-byte budget) into data-file bytes and decoding those bytes back — for
any lossless block codec whose compressed blocks fit a `u64` length — yields
the memtable unchanged: same keys, same `Put`/Tombstone slots, same order. -/
theorem codec_roundtrip (compress dec : List Nat → List Nat)
    (hstep : List Nat → Nat → Nat) (m : Table)
    (hcd : ∀ b, dec (compress b) = b)
    (hclen : ∀ b, b.length < 2 ^ 32 → (compress b).length < 2 ^ 64)
    (hsorted : SortedTable m)
    (hbound : ∀ e ∈ m, recBound e) :
    tryFromData dec (serialize compress hstep m).mainData = some m := by
  cases m with
  | nil => rfl
  | cons e es =>
    have hinv0 : ∀ tail,
        decodeBlocks dec (serInit.tableData.mainData ++ tail).length
            (serInit.tableData.mainData ++ tail) =
          (decodeBlocks dec tail.length tail).map
            (fun r => ([] : List TableEntry) ++ r) := by
      intro tail
      show decodeBlocks dec (([] : List Nat) ++ tail).length (([] : List Nat) ++ tail) = _
      rw [List.nil_append]
      cases decodeBlocks dec tail.length tail <;> simp
    have h := serGo_decodes compress dec hstep hcd hclen (memLen (e :: es))
      (e :: es) 0 serInit [] []
      (by simp)
      (by simp [memLen])
      hbound
      (by intro e' he'; cases he')
      hinv0
      rfl
      rfl
      (by decide)
    rw [tryFromData, serialize, h]
    dsimp only
    simp only [List.nil_append]
    rw [foldl_insertEntry_sorted (e :: es) [] (by simpa using hsorted)]
    simp

/-- A concrete sorted two-entry memtable for the round-trip witness. -/
def rtTable : Table := [([97], MemValue.put [120]), ([98], MemValue.delete)]

/-- Witness for C7 with the identity codec and a concrete table. -/
theorem codec_roundtrip_witness :
    ((∀ b : List Nat, idCodec (idCodec b) = b) ∧
      (∀ b : List Nat, b.length < 2 ^ 32 → (idCodec b).length < 2 ^ 64) ∧
      SortedTable rtTable ∧ (∀ e ∈ rtTable, recBound e)) ∧
    tryFromData idCodec (serialize idCodec zeroHasher rtTable).mainData =
      some rtTable :=
  ⟨⟨fun _ => rfl, fun b h => by simp only [idCodec]; omega, by decide, by decide⟩,
   codec_roundtrip idCodec idCodec zeroHasher rtTable (fun _ => rfl)
     (fun b h => by simp only [idCodec]; omega) (by decide) (by decide)⟩

end BaumDb
